import Mathlib

/-!
Shallow embedding of `src/haadb/haadb.py` (HaaDB, Hive-as-a-DB SDK).

Modelling conventions:
* Python `str` and `bytes` are both modelled as `List Char` (`Str`); the
  utf-8 encode/decode steps between them are identities in the model.
  A `Char` stands for one byte wherever the source manipulates `bytes`
  (hypotheses `c.toNat < 256` appear where byte-ness matters).
* Python dicts are insertion-ordered association lists; updating an
  existing key keeps its position (CPython semantics), appending
  otherwise.  `.items()` iterates in that order.
* The external Hive gateway (nektar) and the Fernet cypher are opaque
  collaborators: history pages are passed in as a list of operations,
  and a cypher is an abstract `encrypt`/`decrypt` pair where `decrypt`
  may fail (`Option`).
* Python `float` values are carried by their `repr` text (CPython
  guarantees `float(str(x)) == x`), and `dict`/`list` values by their
  `str(...)` rendering (for literal-evaluable containers
  `ast.literal_eval(str(v)) == v`); both renderings are injective, so a
  value is identified with its rendering.  `int` rendering and parsing
  are modelled in full.
* Exceptions become `Except Err` / `Option` results.
-/

deriving instance DecidableEq for Except

namespace HaaDB

/-- Byte/character strings: Python `str` and `bytes` collapsed. -/
abbrev Str := List Char

/-- Python dict lookup (`d[k]` as an `Option`). -/
def dictLookup {α : Type} : List (Nat × α) → Nat → Option α
  | [], _ => none
  | (k, v) :: rest, key => if k = key then some v else dictLookup rest key

/-- Python dict assignment `d[k] = v`: replace in place, else append. -/
def dictInsert {α : Type} : List (Nat × α) → Nat → α → List (Nat × α)
  | [], key, v => [(key, v)]
  | (k, w) :: rest, key, v =>
    if k = key then (k, v) :: rest else (k, w) :: dictInsert rest key v

/-- Update the value stored at a key, leaving other entries alone. -/
def dictModify {α : Type} : List (Nat × α) → Nat → (α → α) → List (Nat × α)
  | [], _, _ => []
  | (k, v) :: rest, key, f =>
    if k = key then (k, f v) :: rest else (k, v) :: dictModify rest key f

/-- Module constant `HAADB_VERSION = "1.0.0"`. -/
def HAADB_VERSION : String := "1.0.0"

/-- Application values flowing through the codec, mirroring the Python
types the source dispatches on: `str`, `int`, `float`, structured
containers (`dict`/`list`, carried with their type name and their
`str(...)` rendering), and objects exposing `__bytes__` (carried with
their byte string). -/
inductive PyValue where
  | str (s : Str)
  | int (n : Int)
  | float (r : Str)
  | structured (tn : String) (r : Str)
  | obj (b : Str)
deriving DecidableEq

/-- Source `_get_dtype`: `"object"` when the value has `__bytes__`,
otherwise the Python type name `str(type(obj))[8:][:-2]`. -/
def getDtype : PyValue → String
  | .obj _ => "object"
  | .str _ => "str"
  | .int _ => "int"
  | .float _ => "float"
  | .structured tn _ => tn

/-- Decimal digits of a positive number, least significant first. -/
def natToRev (n : Nat) : Str :=
  if n = 0 then [] else Nat.digitChar (n % 10) :: natToRev (n / 10)
decreasing_by exact Nat.div_lt_self (Nat.pos_of_ne_zero (by assumption)) (by omega)

/-- Python `str(n)` for a natural number. -/
def natRepr (n : Nat) : Str :=
  if n = 0 then ['0'] else (natToRev n).reverse

/-- Python `str(n)` for an integer. -/
def intRepr (n : Int) : Str :=
  if n < 0 then '-' :: natRepr n.natAbs else natRepr n.natAbs

/-- Numeric value of a decimal digit character. -/
def digitVal (c : Char) : Nat := c.toNat - 48

/-- Python `int(s)` on decimal text (total model; the source raises on
text `int` cannot parse, which no claim exercises). -/
def parseNat (s : Str) : Nat := s.foldl (fun acc c => acc * 10 + digitVal c) 0

/-- Python `int(s)` including a leading minus sign. -/
def parseInt (s : Str) : Int :=
  if s.head? = some '-' then -(parseNat (s.drop 1) : Int) else (parseNat s : Int)

/-- Source `_get_bytes`: `obj.__bytes__()` when available, otherwise
`bytes(str(obj), "utf-8")` (the utf-8 step is an identity here). -/
def getBytes : PyValue → Str
  | .obj b => b
  | .str s => s
  | .int n => intRepr n
  | .float r => r
  | .structured _ r => r

/-- Broadcast line 94: `not isinstance(data, (str, int, float))`. -/
def hexCond : PyValue → Bool
  | .str _ => false
  | .int _ => false
  | .float _ => false
  | _ => true

/-- Source `binascii.hexlify`: two lowercase hex digits per byte. -/
def hexlify (s : Str) : Str :=
  s.flatMap fun c => [Nat.digitChar (c.toNat / 16), Nat.digitChar (c.toNat % 16)]

/-- Value of one hex digit character, if any. -/
def hexVal (c : Char) : Option Nat :=
  if '0' ≤ c ∧ c ≤ '9' then some (c.toNat - 48)
  else if 'a' ≤ c ∧ c ≤ 'f' then some (c.toNat - 87)
  else if 'A' ≤ c ∧ c ≤ 'F' then some (c.toNat - 55)
  else none

/-- Source `binascii.unhexlify`: fails on odd length or a non-hex digit. -/
def unhexlify : Str → Option Str
  | [] => some []
  | [_] => none
  | a :: b :: rest =>
    match hexVal a, hexVal b, unhexlify rest with
    | some x, some y, some r => some (Char.ofNat (16 * x + y) :: r)
    | _, _, _ => none

/-- Broadcast lines 92-95: encode the value and hexlify unless it is a
`str`, `int` or `float`. -/
def encodeData (v : PyValue) : Str :=
  let pd := getBytes v
  if hexCond v then hexlify pd else pd

/-- Opaque Fernet adapter; `decrypt` fails on a wrong key or tampered
(or never-encrypted) input. -/
structure Cypher where
  encrypt : Str → Str
  decrypt : Str → Option Str

/-- Broadcast lines 97-100: optional encryption of the processed data. -/
def processedData (v : PyValue) (key : Option Cypher) : Str :=
  match key with
  | some cy => cy.encrypt (encodeData v)
  | none => encodeData v

/-- The custom-JSON payload written by `broadcast` and parsed by `fetch`.
The writer populates the `batch` key (line 117); the reader looks up a
`batches` key (line 166), so both possible keys are carried. -/
structure JPayload where
  haadb : Option String
  timestamp : Nat
  batch : Option (Nat × Nat)
  batches : Option (Nat × Nat)
  dtype : String
  data : Str
deriving DecidableEq

/-- One account-history operation: a custom JSON with its id, or any
other kind of operation (skipped by the scanner). -/
inductive Op where
  | customJson (id : String) (jdata : JPayload)
  | other
deriving DecidableEq

/-- Broadcast lines 111-127: one loop iteration.  The accumulated state
is the operations so far together with `s`; chunk `i` is
`processed_data[s - 1 : (i + 1) * limit - 1]`, after which `s` becomes
`width = (i + 1) * limit`. -/
def broadcastStep (cid : String) (ts : Nat) (dtype : String) (pd : Str)
    (M : Nat) (batches : Nat) (acc : List Op × Nat) (i : Nat) : List Op × Nat :=
  let width := (i + 1) * M
  let jdata : JPayload :=
    { haadb := some HAADB_VERSION
      timestamp := ts
      batch := if batches > 1 then some (i + 1, batches) else none
      batches := none
      dtype := dtype
      data := (pd.drop (acc.2 - 1)).take ((width - 1) - (acc.2 - 1)) }
  (acc.1 ++ [Op.customJson cid jdata], width)

/-- Broadcast lines 108-127: the chunking loop, `s` starting at 1. -/
def broadcastLoop (cid : String) (ts : Nat) (dtype : String) (pd : Str)
    (M : Nat) (batches : Nat) : List Op :=
  ((List.range batches).foldl (broadcastStep cid ts dtype pd M batches) ([], 1)).1

/-- Closed form of the text of chunk `i`: the loop's `s` equals 1 on the
first iteration and `i * M` afterwards, so the slice
`pd[s - 1 : (i + 1) * M - 1]` is `M - 1` characters from offset 0 for
chunk 0 and `M` characters from offset `i * M - 1` for later chunks. -/
def chunkText (pd : Str) (M i : Nat) : Str :=
  (pd.drop (if i = 0 then 0 else i * M - 1)).take (if i = 0 then M - 1 else M)

/-- Closed form of the record emitted for chunk `i`. -/
def chunkRecord (cid : String) (ts : Nat) (dtype : String) (pd : Str)
    (M : Nat) (batches : Nat) (i : Nat) : Op :=
  .customJson cid
    { haadb := some HAADB_VERSION
      timestamp := ts
      batch := if batches > 1 then some (i + 1, batches) else none
      batches := none
      dtype := dtype
      data := chunkText pd M i }

/-- Source `HaaDB.broadcast`: the list of custom-JSON operations one
call submits (`M` is the adjusted limit `self._limit = limit - 512`;
`batches = len(processed_data) // self._limit + 1`). -/
def broadcastRecords (cid : String) (v : PyValue) (key : Option Cypher)
    (ts : Nat) (M : Nat) : List Op :=
  let dtype := getDtype v
  let pd := processedData v key
  let batches := pd.length / M + 1
  broadcastLoop cid ts dtype pd M batches

/-- Chunk text carried by an operation (empty for non-custom-JSON). -/
def recordData : Op → Str
  | .customJson _ j => j.data
  | .other => []

/-- One per-timestamp version bucket built by the fetch scan:
`versions[ts] = (batches = batches[1], dtype, data = dict index → chunk)`. -/
structure Bucket where
  batches : Nat
  dtype : String
  data : List (Nat × Str)
deriving DecidableEq

/-- Fetch lines 153-174: fold one history operation into the versions
dict.  Non-custom-JSON items, foreign contract ids and payloads without
the `haadb` marker are skipped; the batch descriptor is read from the
`batches` key with default `[1, 1]`. -/
def scanStep (cid : String) (versions : List (Nat × Bucket)) : Op → List (Nat × Bucket)
  | .other => versions
  | .customJson id j =>
    if id ≠ cid then versions
    else if j.haadb.isNone then versions
    else
      let bs := j.batches.getD (1, 1)
      let versions' :=
        match dictLookup versions j.timestamp with
        | none => dictInsert versions j.timestamp ⟨bs.2, j.dtype, []⟩
        | some _ => versions
      dictModify versions' j.timestamp
        (fun b => { b with data := dictInsert b.data bs.1 j.data })

/-- The whole scan: fold the matching records of the account history
into the versions dict (the paging/`top` machinery of lines 145-179 only
feeds items in; the per-item processing is `scanStep`). -/
def scan (cid : String) (ops : List Op) : List (Nat × Bucket) :=
  ops.foldl (scanStep cid) []

/-- Exceptions surfaced by the model: the `start` ValidationError
(`HaaDBException`), `binascii.Error` from `unhexlify`, and a dict
`KeyError`. -/
inductive Err where
  | validation
  | hexError
  | keyError
deriving DecidableEq

/-- Construct line 205: `"".join([b for a, b in chunks["data"].items()])`
— joined in dict insertion order (the sorted key list `parts` computed
on line 204 is never used by the source). -/
def joinChunks (data : List (Nat × Str)) : Str := (data.map Prod.snd).flatten

/-- Construct lines 213-223: optional unhexlify, then dtype dispatch
(`int(data)`, `float(data)`, `ast.literal_eval(data)`, or the text
itself for dtypes `str` and `object`). -/
def decodeData (dtype : String) (d : Str) : Except Err PyValue :=
  let hexed := if dtype ≠ "str" ∧ dtype ≠ "int" ∧ dtype ≠ "float" then unhexlify d else some d
  match hexed with
  | none => .error .hexError
  | some data =>
    if dtype ≠ "str" ∧ dtype ≠ "object" then
      if dtype = "int" then .ok (.int (parseInt data))
      else if dtype = "float" then .ok (.float data)
      else .ok (.structured dtype data)
    else .ok (.str data)

/-- Source `_construct` (lines 195-223): empty bucket gives `""`; join
the chunks; with a key, attempt decryption and on any failure return the
raw joined text; then decode. -/
def construct (chunks : Bucket) (key : Option Cypher) : Except Err PyValue :=
  if chunks.data = [] then .ok (.str [])
  else
    let data := joinChunks chunks.data
    match key with
    | some cy =>
      match cy.decrypt data with
      | some d => decodeData chunks.dtype d
      | none => .ok (.str data)
    | none => decodeData chunks.dtype data

/-- Fetch lines 181-185: walk the versions dict in order, skip a bucket
when `strict and (chunks["batches"] != len(chunks["data"]))`, otherwise
reconstruct it; a construct exception aborts the whole fetch. -/
def buildConstructed (key : Option Cypher) (strict : Bool) :
    List (Nat × Bucket) → Except Err (List (Nat × PyValue))
  | [] => .ok []
  | (ts, b) :: rest =>
    if strict = true ∧ b.batches ≠ b.data.length then
      buildConstructed key strict rest
    else
      match construct b key, buildConstructed key strict rest with
      | .ok v, .ok m => .ok ((ts, v) :: m)
      | .error e, _ => .error e
      | .ok _, .error e => .error e

/-- Python `max(list(d.keys()))` over a nonempty Nat-keyed dict. -/
def maxKey {α : Type} (m : List (Nat × α)) : Nat := (m.map Prod.fst).foldl max 0

/-- What fetch returns: a single value (`latest=True`, with `""` as the
empty sentinel) or the full timestamp-to-value dict. -/
inductive FetchOut where
  | value (v : PyValue)
  | table (m : List (Nat × PyValue))
deriving DecidableEq

/-- Fetch lines 181-192: build the constructed dict and select the
output per the `latest` flag. -/
def fetchFinish (versions : List (Nat × Bucket)) (key : Option Cypher)
    (strict latest : Bool) : Except Err FetchOut :=
  match buildConstructed key strict versions with
  | .error e => .error e
  | .ok constructed =>
    if latest then
      if constructed ≠ [] then
        match dictLookup constructed (maxKey constructed) with
        | some v => .ok (.value v)
        | none => .error .keyError
      else .ok (.value (.str []))
    else .ok (.table constructed)

/-- Source `HaaDB.fetch`: validate `start` (lines 139-140) before any
I/O, then scan the supplied history and finish. -/
def fetchModel (cid : String) (key : Option Cypher) (start : Int)
    (strict latest : Bool) (ops : List Op) : Except Err FetchOut :=
  if start < 1000 ∨ 0 < start % 1000 then .error .validation
  else fetchFinish (scan cid ops) key strict latest

/-- Source `HaaDB.get_marker` (lines 67-71): from the gateway's history
response take `results[0][0]` and return
`max(((results[0][0] // 1000) * 1000) - 1000, 1000)`; an empty response
would raise (`none`). -/
def get_marker (results : List (Int × Op)) : Option Int :=
  match results with
  | [] => none
  | (s, _) :: _ => some (max ((s / 1000) * 1000 - 1000) 1000)

/-! Helper lemmas about the chunking loop. -/

theorem broadcast_foldl_closed (cid : String) (ts : Nat) (dtype : String)
    (pd : Str) (M batches : Nat) (hM : 0 < M) (n : Nat) :
    (List.range n).foldl (broadcastStep cid ts dtype pd M batches) ([], 1)
      = ((List.range n).map (chunkRecord cid ts dtype pd M batches),
         if n = 0 then 1 else n * M) := by
  induction n with
  | zero => rfl
  | succ k ih =>
    rw [List.range_succ, List.foldl_append, List.map_append, ih]
    simp only [List.foldl_cons, List.foldl_nil, List.map_cons, List.map_nil]
    cases k with
    | zero =>
      simp [broadcastStep, chunkRecord, chunkText]
    | succ j =>
      have hpos : 0 < (j + 1) * M := Nat.mul_pos (Nat.succ_pos j) hM
      have harith : (j + 1 + 1) * M - 1 - ((j + 1) * M - 1) = M := by
        have e : (j + 1 + 1) * M = (j + 1) * M + M := by ring
        omega
      simp only [broadcastStep, chunkRecord, chunkText, if_neg (Nat.succ_ne_zero j)]
      rw [harith]
      simp

theorem broadcastLoop_closed (cid : String) (ts : Nat) (dtype : String)
    (pd : Str) (M batches : Nat) (hM : 0 < M) :
    broadcastLoop cid ts dtype pd M batches
      = (List.range batches).map (chunkRecord cid ts dtype pd M batches) := by
  rw [broadcastLoop, broadcast_foldl_closed cid ts dtype pd M batches hM]

theorem broadcastRecords_closed (cid : String) (v : PyValue) (key : Option Cypher)
    (ts M : Nat) (hM : 0 < M) :
    broadcastRecords cid v key ts M
      = (List.range ((processedData v key).length / M + 1)).map
          (chunkRecord cid ts (getDtype v) (processedData v key) M
            ((processedData v key).length / M + 1)) := by
  rw [broadcastRecords, broadcastLoop_closed _ _ _ _ _ _ hM]

theorem broadcastRecords_length (cid : String) (v : PyValue) (key : Option Cypher)
    (ts M : Nat) (hM : 0 < M) :
    (broadcastRecords cid v key ts M).length = (processedData v key).length / M + 1 := by
  rw [broadcastRecords_closed cid v key ts M hM]
  simp

theorem chunkText_flatten (pd : Str) (M : Nat) (hM : 0 < M) (n : Nat) :
    ((List.range n).map (chunkText pd M)).flatten = pd.take (n * M - 1) := by
  induction n with
  | zero => simp
  | succ k ih =>
    rw [List.range_succ, List.map_append, List.flatten_append, ih]
    cases k with
    | zero => simp [chunkText]
    | succ j =>
      have hpos : 0 < (j + 1) * M := Nat.mul_pos (Nat.succ_pos j) hM
      have harith : (j + 1) * M - 1 + M = (j + 1 + 1) * M - 1 := by
        have e : (j + 1 + 1) * M = (j + 1) * M + M := by ring
        omega
      simp only [chunkText, if_neg (Nat.succ_ne_zero j), List.map_cons, List.map_nil,
        List.flatten_cons, List.flatten_nil, List.append_nil]
      rw [← List.take_add, harith]

theorem length_le_batches_mul (L M : Nat) (hM : 0 < M) : L ≤ (L / M + 1) * M - 1 := by
  have hq := Nat.div_add_mod L M
  have hlt : L % M < M := Nat.mod_lt L hM
  have e : (L / M + 1) * M = M * (L / M) + M := by ring
  omega

theorem chunkText_length_le (pd : Str) (M i : Nat) :
    (chunkText pd M i).length ≤ if i = 0 then M - 1 else M := by
  simp only [chunkText, List.length_take]
  split <;> exact min_le_left _ _

/-! Helper lemmas about the decimal and hex codecs. -/

theorem digitVal_digitChar (d : Nat) (h : d < 10) : digitVal (Nat.digitChar d) = d := by
  interval_cases d <;> decide

theorem digitChar_ne_minus (d : Nat) (h : d < 10) : Nat.digitChar d ≠ '-' := by
  interval_cases d <;> decide

theorem natToRev_digits (n : Nat) : ∀ c ∈ natToRev n, ∃ d, d < 10 ∧ c = Nat.digitChar d := by
  induction n using Nat.strong_induction_on with
  | _ n ih =>
    rw [natToRev]
    split
    · simp
    · intro c hc
      rcases List.mem_cons.mp hc with h | h
      · exact ⟨n % 10, Nat.mod_lt n (by omega), h⟩
      · exact ih (n / 10) (Nat.div_lt_self (Nat.pos_of_ne_zero (by assumption)) (by omega)) c h

theorem parseNat_rev_natToRev (n : Nat) : parseNat (natToRev n).reverse = n := by
  induction n using Nat.strong_induction_on with
  | _ n ih =>
    rw [natToRev]
    split
    · rename_i h0
      subst h0
      simp [parseNat]
    · rename_i hn
      rw [List.reverse_cons]
      show parseNat ((natToRev (n / 10)).reverse ++ [Nat.digitChar (n % 10)]) = n
      unfold parseNat
      rw [List.foldl_append]
      have hrec := ih (n / 10) (Nat.div_lt_self (Nat.pos_of_ne_zero hn) (by omega))
      unfold parseNat at hrec
      rw [hrec]
      simp only [List.foldl_cons, List.foldl_nil]
      rw [digitVal_digitChar (n % 10) (Nat.mod_lt n (by omega))]
      omega

theorem parseNat_natRepr (n : Nat) : parseNat (natRepr n) = n := by
  rw [natRepr]
  split
  · rename_i h
    rw [h]
    decide
  · exact parseNat_rev_natToRev n

theorem natRepr_ne_nil (n : Nat) : natRepr n ≠ [] := by
  rw [natRepr]
  split
  · simp
  · rw [← List.length_pos, List.length_reverse, List.length_pos]
    rw [natToRev]
    simp_all

theorem natRepr_head_ne_minus (n : Nat) (c : Char) (h : (natRepr n).head? = some c) :
    c ≠ '-' := by
  have hmem : c ∈ natRepr n := by
    cases hl : natRepr n with
    | nil => rw [hl] at h; simp at h
    | cons x xs => rw [hl] at h; simp at h; simp [h]
  rw [natRepr] at hmem
  revert hmem
  split
  · intro hmem
    simp at hmem
    simp [hmem]
  · intro hmem
    rw [List.mem_reverse] at hmem
    obtain ⟨d, hd, rfl⟩ := natToRev_digits n c hmem
    exact digitChar_ne_minus d hd

theorem parseInt_intRepr (n : Int) : parseInt (intRepr n) = n := by
  by_cases hn : n < 0
  · rw [intRepr, if_pos hn, parseInt]
    rw [if_pos (show ('-' :: natRepr n.natAbs).head? = some '-' from rfl)]
    simp only [List.drop_succ_cons, List.drop_zero]
    rw [parseNat_natRepr]
    omega
  · rw [intRepr, if_neg hn, parseInt]
    rw [if_neg]
    · rw [parseNat_natRepr]
      omega
    · intro hc
      exact natRepr_head_ne_minus n.natAbs '-' hc rfl

theorem hexVal_digitChar (d : Nat) (h : d < 16) : hexVal (Nat.digitChar d) = some d := by
  interval_cases d <;> decide

theorem unhexlify_hexlify (s : Str) (h : ∀ c ∈ s, c.toNat < 256) :
    unhexlify (hexlify s) = some s := by
  induction s with
  | nil => rfl
  | cons c cs ih =>
    have hc : c.toNat < 256 := h c (List.mem_cons_self c cs)
    have hdiv : c.toNat / 16 < 16 := by omega
    have hmod : c.toNat % 16 < 16 := by omega
    show unhexlify
      (Nat.digitChar (c.toNat / 16) :: Nat.digitChar (c.toNat % 16) :: hexlify cs) = _
    rw [unhexlify, hexVal_digitChar _ hdiv, hexVal_digitChar _ hmod,
      ih (fun x hx => h x (List.mem_cons_of_mem c hx))]
    show some (Char.ofNat (16 * (c.toNat / 16) + c.toNat % 16) :: cs) = some (c :: cs)
    rw [Nat.div_add_mod, Char.ofNat_toNat]

/-! Helper lemmas about dicts, maxima and the fetch error channel. -/

theorem dictLookup_eq_none {α : Type} (m : List (Nat × α)) (k : Nat)
    (h : k ∉ m.map Prod.fst) : dictLookup m k = none := by
  induction m with
  | nil => rfl
  | cons p rest ih =>
    obtain ⟨k', v⟩ := p
    simp only [List.map_cons, List.mem_cons] at h
    push_neg at h
    rw [dictLookup, if_neg (fun hc => h.1 hc.symm), ih h.2]

theorem dictLookup_of_mem {α : Type} :
    ∀ (m : List (Nat × α)) (k : Nat) (v : α),
      (k, v) ∈ m → (m.map Prod.fst).Nodup → dictLookup m k = some v := by
  intro m
  induction m with
  | nil =>
    intro k v h _
    simp at h
  | cons p rest ih =>
    intro k v h hnd
    obtain ⟨k', v'⟩ := p
    simp only [List.map_cons, List.nodup_cons] at hnd
    rcases List.mem_cons.mp h with he | hm
    · injection he with he1 he2
      rw [dictLookup, if_pos he1.symm, he2]
    · have hk : k' ≠ k := by
        intro hc
        subst hc
        exact hnd.1 (List.mem_map.mpr ⟨(k', v), hm, rfl⟩)
      rw [dictLookup, if_neg hk]
      exact ih k v hm hnd.2

theorem foldl_max_init_le (l : List Nat) (a : Nat) : a ≤ l.foldl max a := by
  induction l generalizing a with
  | nil => simp
  | cons x xs ih => exact le_trans (le_max_left a x) (ih (max a x))

theorem le_foldl_max (l : List Nat) :
    ∀ (a k : Nat), k ∈ l → k ≤ l.foldl max a := by
  induction l with
  | nil =>
    intro a k hk
    simp at hk
  | cons x xs ih =>
    intro a k hk
    rcases List.mem_cons.mp hk with rfl | hm
    · exact le_trans (le_max_right a k) (foldl_max_init_le xs (max a k))
    · exact ih (max a x) k hm

theorem foldl_max_le (l : List Nat) :
    ∀ (a t : Nat), a ≤ t → (∀ k ∈ l, k ≤ t) → l.foldl max a ≤ t := by
  induction l with
  | nil =>
    intro a t ha _
    simpa
  | cons x xs ih =>
    intro a t ha h
    exact ih (max a x) t (max_le ha (h x (List.mem_cons_self x xs)))
      (fun k hk => h k (List.mem_cons_of_mem x hk))

theorem decodeData_error (dtype : String) (d : Str) (e : Err)
    (h : decodeData dtype d = .error e) : e = .hexError := by
  simp only [decodeData] at h
  split at h
  · injection h with h
    exact h.symm
  · split at h
    · split at h
      · simp at h
      · split at h
        · simp at h
        · simp at h
    · simp at h

theorem construct_error (b : Bucket) (key : Option Cypher) (e : Err)
    (h : construct b key = .error e) : e = .hexError := by
  simp only [construct] at h
  split at h
  · simp at h
  · split at h
    · split at h
      · exact decodeData_error _ _ _ h
      · simp at h
    · exact decodeData_error _ _ _ h

theorem buildConstructed_error (key : Option Cypher) (strict : Bool) :
    ∀ (versions : List (Nat × Bucket)) (e : Err),
      buildConstructed key strict versions = .error e → e = .hexError := by
  intro versions
  induction versions with
  | nil =>
    intro e h
    simp [buildConstructed] at h
  | cons p rest ih =>
    obtain ⟨ts, b⟩ := p
    intro e h
    rw [buildConstructed] at h
    split at h
    · exact ih e h
    · split at h
      · simp at h
      · rename_i e' x heq1 heq2
        injection h with h
        subst h
        exact construct_error _ _ _ (by assumption)
      · rename_i a e' heq1 heq2
        injection h with h
        subst h
        exact ih _ (by assumption)

theorem buildConstructed_keys (key : Option Cypher) (strict : Bool) :
    ∀ (versions : List (Nat × Bucket)) (m : List (Nat × PyValue)),
      buildConstructed key strict versions = .ok m →
      ∀ k, k ∈ m.map Prod.fst → k ∈ versions.map Prod.fst := by
  intro versions
  induction versions with
  | nil =>
    intro m h k hk
    rw [buildConstructed] at h
    injection h with h
    subst h
    simp at hk
  | cons p rest ih =>
    obtain ⟨ts, b⟩ := p
    intro m h k hk
    rw [buildConstructed] at h
    split at h
    · exact List.mem_cons_of_mem _ (ih m h k hk)
    · split at h
      · rename_i v m' hc hr
        injection h with h
        subst h
        simp only [List.map_cons, List.mem_cons] at hk ⊢
        rcases hk with rfl | hk
        · exact Or.inl rfl
        · exact Or.inr (ih m' hr k hk)
      · simp at h
      · simp at h

theorem fetchFinish_ne_validation (versions : List (Nat × Bucket))
    (key : Option Cypher) (strict latest : Bool) :
    fetchFinish versions key strict latest ≠ .error .validation := by
  intro hc
  rw [fetchFinish] at hc
  split at hc
  · rename_i e heq
    injection hc with hc
    subst hc
    exact absurd (buildConstructed_error key strict versions .validation heq) (by simp)
  · split at hc
    · split at hc
      · split at hc
        · simp at hc
        · simp at hc
      · simp at hc
    · simp at hc

theorem buildConstructed_mem (key : Option Cypher) (strict : Bool) :
    ∀ (versions : List (Nat × Bucket)) (ts : Nat) (b : Bucket)
      (m : List (Nat × PyValue)),
      (ts, b) ∈ versions → (versions.map Prod.fst).Nodup →
      buildConstructed key strict versions = .ok m →
      (if strict = true ∧ b.batches ≠ b.data.length then dictLookup m ts = none
       else ∃ v, construct b key = .ok v ∧ dictLookup m ts = some v) := by
  intro versions
  induction versions with
  | nil =>
    intro ts b m hmem
    simp at hmem
  | cons p rest ih =>
    intro ts b m hmem hnd hok
    obtain ⟨ts', b'⟩ := p
    rw [buildConstructed] at hok
    simp only [List.map_cons, List.nodup_cons] at hnd
    rcases List.mem_cons.mp hmem with he | hmr
    · injection he with he1 he2
      subst he1
      subst he2
      split at hok
      · rename_i hcond
        rw [if_pos hcond]
        exact dictLookup_eq_none m ts
          (fun hc => hnd.1 (buildConstructed_keys key strict rest m hok ts hc))
      · rename_i hcond
        rw [if_neg hcond]
        cases hcon : construct b key with
        | error e =>
          rw [hcon] at hok
          simp at hok
        | ok v =>
          cases hrest : buildConstructed key strict rest with
          | error e =>
            rw [hcon, hrest] at hok
            simp at hok
          | ok mr =>
            rw [hcon, hrest] at hok
            injection hok with hok
            subst hok
            exact ⟨v, rfl, by rw [dictLookup, if_pos rfl]⟩
    · have hts : ts' ≠ ts := by
        intro hc
        subst hc
        exact hnd.1 (List.mem_map.mpr ⟨(ts', b), hmr, rfl⟩)
      split at hok
      · exact ih ts b m hmr hnd.2 hok
      · cases hcon : construct b' key with
        | error e =>
          rw [hcon] at hok
          simp at hok
        | ok v' =>
          cases hrest : buildConstructed key strict rest with
          | error e =>
            rw [hcon, hrest] at hok
            simp at hok
          | ok mr =>
            rw [hcon, hrest] at hok
            injection hok with hok
            subst hok
            have hres := ih ts b mr hmr hnd.2 hrest
            by_cases hcond2 : strict = true ∧ b.batches ≠ b.data.length
            · rw [if_pos hcond2] at hres ⊢
              rw [dictLookup, if_neg hts]
              exact hres
            · rw [if_neg hcond2] at hres ⊢
              obtain ⟨v, hv, hl⟩ := hres
              exact ⟨v, hv, by rw [dictLookup, if_neg hts]; exact hl⟩

/-! Claim theorems. -/

/-- C10: for every encoded payload text and every configured limit
(validated to lie in 1024..4096, adjusted to `limit - 512`), the chunk
texts emitted by broadcast concatenate, in emission order, exactly to
the payload; each chunk holds at most `limit - 512` characters and the
first chunk at most `limit - 513`, so every chunk is strictly smaller
than the caller-supplied limit. -/
theorem chunk_partition (cid : String) (v : PyValue) (key : Option Cypher)
    (ts limit : Nat) (h1 : 1024 ≤ limit) (h2 : limit ≤ 4096) :
    ((broadcastRecords cid v key ts (limit - 512)).map recordData).flatten
        = processedData v key
    ∧ (∀ c ∈ (broadcastRecords cid v key ts (limit - 512)).map recordData,
        c.length ≤ limit - 512 ∧ c.length < limit)
    ∧ (∀ c, ((broadcastRecords cid v key ts (limit - 512)).map recordData).head?
          = some c → c.length ≤ limit - 513) := by
  have hM : 0 < limit - 512 := by omega
  have hcl := broadcastRecords_closed cid v key ts (limit - 512) hM
  have hcomp : ∀ B i, recordData
      (chunkRecord cid ts (getDtype v) (processedData v key) (limit - 512) B i)
        = chunkText (processedData v key) (limit - 512) i := fun B i => rfl
  refine ⟨?_, ?_, ?_⟩
  · rw [hcl, List.map_map]
    rw [show recordData ∘ chunkRecord cid ts (getDtype v) (processedData v key)
        (limit - 512) ((processedData v key).length / (limit - 512) + 1)
          = chunkText (processedData v key) (limit - 512) from funext (hcomp _)]
    rw [chunkText_flatten _ _ hM]
    exact List.take_of_length_le (length_le_batches_mul _ _ hM)
  · intro c hc
    rw [hcl, List.map_map] at hc
    obtain ⟨i, _, hi⟩ := List.mem_map.mp hc
    have hlen := chunkText_length_le (processedData v key) (limit - 512) i
    rw [Function.comp_apply, hcomp] at hi
    subst hi
    have hle : (chunkText (processedData v key) (limit - 512) i).length ≤ limit - 512 := by
      split at hlen <;> omega
    exact ⟨hle, by omega⟩
  · intro c hc
    rw [hcl, List.map_map, List.range_succ_eq_map, List.map_cons, List.head?_cons,
      Option.some_inj] at hc
    rw [Function.comp_apply, hcomp] at hc
    subst hc
    have hlen := chunkText_length_le (processedData v key) (limit - 512) 0
    rw [if_pos rfl] at hlen
    omega

/-- C10 witness: the partition property evaluated at limit 1024 and the
two-character payload of broadcasting the string value `hi`. -/
theorem chunk_partition_witness :
    (1024 ≤ 1024 ∧ 1024 ≤ 4096)
    ∧ (((broadcastRecords "c" (.str "hi".toList) none 0 (1024 - 512)).map
          recordData).flatten = processedData (.str "hi".toList) none
      ∧ (∀ c ∈ (broadcastRecords "c" (.str "hi".toList) none 0 (1024 - 512)).map
            recordData, c.length ≤ 1024 - 512 ∧ c.length < 1024)
      ∧ (∀ c, ((broadcastRecords "c" (.str "hi".toList) none 0 (1024 - 512)).map
            recordData).head? = some c → c.length ≤ 1024 - 513)) :=
  ⟨by decide, chunk_partition "c" (.str "hi".toList) none 0 1024 (by decide) (by decide)⟩

set_option maxRecDepth 8000 in
/-- C3 counterexample: with limit 1024 the effective chunk limit is
`M = 512`; broadcasting an encoded payload of exactly 512 characters
emits 2 records, while `max(1, ceil(512 / 512)) = 1`. -/
theorem chunk_count_counterexample :
    (processedData (.str (List.replicate 512 'a')) none).length = 512
    ∧ (broadcastRecords "c" (.str (List.replicate 512 'a')) none 0 512).length = 2
    ∧ max 1 ((512 + 512 - 1) / 512) = 1 := by
  refine ⟨by decide, ?_, by decide⟩
  decide

/-- C3 as amended: broadcast emits exactly `L / M + 1` chunk records for
payload length `L` and effective limit `M` (floor division plus one, not
the ceiling); this agrees with `max(1, ceil(L / M))` except when `L` is
a positive multiple of `M`, and in particular a single record is emitted
for the empty payload. -/
theorem chunk_count_amended (cid : String) (v : PyValue) (key : Option Cypher)
    (ts M : Nat) (hM : 0 < M) :
    (broadcastRecords cid v key ts M).length = (processedData v key).length / M + 1
    ∧ (¬(M ∣ (processedData v key).length ∧ 0 < (processedData v key).length) →
        (processedData v key).length / M + 1
          = max 1 (((processedData v key).length + M - 1) / M)) := by
  constructor
  · exact broadcastRecords_length cid v key ts M hM
  · intro hnd
    generalize hLen : (processedData v key).length = L at hnd ⊢
    by_cases hL : L = 0
    · rw [hL, Nat.zero_div, Nat.div_eq_of_lt (by omega)]
      decide
    · have hr : L % M ≠ 0 := by
        intro hc
        exact hnd ⟨Nat.dvd_iff_mod_eq_zero.mpr hc, Nat.pos_of_ne_zero hL⟩
      have hq := Nat.div_add_mod L M
      have hlt : L % M < M := Nat.mod_lt _ hM
      have hceil : (L + M - 1) / M = L / M + 1 := by
        have hL0 : L ≠ 0 := fun h0 => hr (by rw [h0]; simp)
        have hdvd : ¬ M ∣ L := fun hd => hr (Nat.dvd_iff_mod_eq_zero.mp hd)
        have e1 : L + M - 1 = (L - 1) + M := by omega
        have e2 : (L - 1) + 1 = L := by omega
        rw [e1, Nat.add_div_right _ hM]
        congr 1
        conv_rhs => rw [← e2]
        rw [Nat.succ_div, if_neg (by rw [e2]; exact hdvd)]
        exact (Nat.add_zero _).symm
      rw [hceil]
      exact (max_eq_right (Nat.succ_le_succ (Nat.zero_le _))).symm

/-- C3 witness: payload `hello` (length 5) with effective limit 3 emits
`5 / 3 + 1 = 2` records, which here agrees with the ceiling formula. -/
theorem chunk_count_amended_witness :
    0 < 3
    ∧ ((broadcastRecords "c" (.str "hello".toList) none 0 3).length
        = (processedData (.str "hello".toList) none).length / 3 + 1
      ∧ (¬((3 : Nat) ∣ (processedData (.str "hello".toList) none).length
            ∧ 0 < (processedData (.str "hello".toList) none).length) →
          (processedData (.str "hello".toList) none).length / 3 + 1
            = max 1 (((processedData (.str "hello".toList) none).length + 3 - 1) / 3))) :=
  ⟨by decide, chunk_count_amended "c" (.str "hello".toList) none 0 3 (by decide)⟩

/-- C9: `get_marker` applied to a gateway response whose first entry
carries transaction sequence `s` returns
`max(((s // 1000) * 1000) - 1000, 1000)`, which is always a multiple of
1000 and at least 1000. -/
theorem get_marker_spec (results : List (Int × Op)) (s : Int) (o : Op)
    (rest : List (Int × Op)) (h : results = (s, o) :: rest) :
    get_marker results = some (max ((s / 1000) * 1000 - 1000) 1000)
    ∧ (1000 : Int) ∣ max ((s / 1000) * 1000 - 1000) 1000
    ∧ 1000 ≤ max ((s / 1000) * 1000 - 1000) 1000 := by
  subst h
  have h1 : (1000 : Int) ∣ (s / 1000) * 1000 - 1000 := ⟨s / 1000 - 1, by ring⟩
  refine ⟨rfl, ?_, le_max_right _ _⟩
  rcases max_choice ((s / 1000) * 1000 - 1000) 1000 with hm | hm
  · rw [hm]
    exact h1
  · rw [hm]

/-- C9 witness: a history whose first returned entry has sequence 12345
yields marker `max(12000 - 1000, 1000) = 11000`. -/
theorem get_marker_spec_witness :
    get_marker [((12345 : Int), Op.other)]
        = some (max (((12345 : Int) / 1000) * 1000 - 1000) 1000)
    ∧ (1000 : Int) ∣ max (((12345 : Int) / 1000) * 1000 - 1000) 1000
    ∧ 1000 ≤ max (((12345 : Int) / 1000) * 1000 - 1000) 1000 :=
  get_marker_spec [((12345 : Int), Op.other)] 12345 Op.other [] rfl

/-- C6: fetch fails with the ValidationError (before touching the
history) exactly when `start` is not a multiple of 1000 that is at least
1000; in particular `start = 999` raises and `start = 2000` does not. -/
theorem start_validation (cid : String) (key : Option Cypher) (start : Int)
    (strict latest : Bool) (ops : List Op) :
    (fetchModel cid key start strict latest ops = .error .validation
      ↔ ¬(1000 ≤ start ∧ (1000 : Int) ∣ start))
    ∧ fetchModel cid key 999 strict latest ops = .error .validation
    ∧ fetchModel cid key 2000 strict latest ops ≠ .error .validation := by
  have main : ∀ st : Int,
      (fetchModel cid key st strict latest ops = .error .validation
        ↔ ¬(1000 ≤ st ∧ (1000 : Int) ∣ st)) := by
    intro st
    rw [fetchModel]
    by_cases hcond : st < 1000 ∨ 0 < st % 1000
    · rw [if_pos hcond]
      constructor
      · intro _
        omega
      · intro _
        rfl
    · rw [if_neg hcond]
      constructor
      · intro hc
        exact absurd hc (fetchFinish_ne_validation _ _ _ _)
      · intro hn
        exfalso
        apply hn
        constructor <;> omega
  refine ⟨main start, (main 999).mpr (by omega), fun hc => (main 2000).mp hc (by omega)⟩

set_option maxRecDepth 8000 in
/-- C1 (code bug evaluation): broadcast writes the batch descriptor
under the JSON key `batch` while fetch reads the key `batches`, so for a
512-character string value at limit 1024 (two chunks of 511 and 1
characters) a fetch over exactly the broadcast records reconstructs only
the last chunk, the one-character string, not the original value. -/
theorem roundtrip_batch_key_bug :
    fetchModel "c" none 1000 true true
        (broadcastRecords "c" (.str (List.replicate 512 'a')) none 5 512)
      = .ok (.value (.str ['a']))
    ∧ (PyValue.str ['a'] : PyValue) ≠ .str (List.replicate 512 'a')
    ∧ (broadcastRecords "c" (.str (List.replicate 512 'a')) none 5 512).length = 2 := by
  refine ⟨by decide, by decide, by decide⟩

/-- C2 (code bug evaluation): `_construct` joins the chunks in dict
insertion order, not in ascending index order (the sorted key list it
computes is never used): a bucket whose chunks were encountered as index
2 then index 1 reconstructs to `worldhello`, not `helloworld`. -/
theorem construct_insertion_order_bug :
    construct ⟨2, "str", [(2, "world".toList), (1, "hello".toList)]⟩ none
      = .ok (.str "worldhello".toList)
    ∧ "worldhello".toList ≠ "helloworld".toList := by
  refine ⟨by decide, by decide⟩

/-- C4 counterexample: an incomplete bucket (1 of 2 declared chunks,
dtype `dict`, odd-length hex text) fetched with strict=false is not
included in the returned mapping; its best-effort reconstruction raises
from `unhexlify` and the whole fetch fails. -/
theorem strict_completeness_counterexample :
    scan "c" [.customJson "c" ⟨some "1.0.0", 3, none, some (1, 2), "dict", "686".toList⟩]
      = [(3, ⟨2, "dict", [(1, "686".toList)]⟩)]
    ∧ (Bucket.mk 2 "dict" [(1, "686".toList)]).data.length
        < (Bucket.mk 2 "dict" [(1, "686".toList)]).batches
    ∧ fetchModel "c" none 1000 false false
        [.customJson "c" ⟨some "1.0.0", 3, none, some (1, 2), "dict", "686".toList⟩]
      = .error .hexError := by
  refine ⟨by decide, by decide, by decide⟩

/-- C4 as amended: in the constructed mapping of fetch, a bucket with
fewer distinct chunk indices than its declared batch count is excluded
under strict=true and is passed to best-effort reconstruction under
strict=false, appearing with its reconstructed value whenever
reconstruction of the walked buckets succeeds; a bucket holding all
declared chunks is reconstructed under both settings. -/
theorem strict_completeness_amended (versions : List (Nat × Bucket))
    (key : Option Cypher) (ts : Nat) (b : Bucket) (hmem : (ts, b) ∈ versions)
    (hnd : (versions.map Prod.fst).Nodup) :
    (∀ m, buildConstructed key true versions = .ok m →
       (b.data.length < b.batches → dictLookup m ts = none)
       ∧ (b.data.length = b.batches →
            ∃ v, construct b key = .ok v ∧ dictLookup m ts = some v))
    ∧ (∀ m, buildConstructed key false versions = .ok m →
       ∃ v, construct b key = .ok v ∧ dictLookup m ts = some v) := by
  constructor
  · intro m hok
    constructor
    · intro hlt
      have h := buildConstructed_mem key true versions ts b m hmem hnd hok
      rwa [if_pos ⟨rfl, by omega⟩] at h
    · intro heq
      have h := buildConstructed_mem key true versions ts b m hmem hnd hok
      rwa [if_neg (fun hc => hc.2 heq.symm)] at h
  · intro m hok
    have h := buildConstructed_mem key false versions ts b m hmem hnd hok
    rwa [if_neg (fun hc => Bool.false_ne_true hc.1)] at h

/-- C4 witness: a two-bucket versions dict with one incomplete and one
complete `str` bucket, checked under both strict settings. -/
theorem strict_completeness_amended_witness :
    ((3, Bucket.mk 2 "str" [(1, "x".toList)]) ∈
        [(3, Bucket.mk 2 "str" [(1, "x".toList)]), (7, Bucket.mk 1 "str" [(1, "y".toList)])]
      ∧ (([(3, Bucket.mk 2 "str" [(1, "x".toList)]),
           (7, Bucket.mk 1 "str" [(1, "y".toList)])].map Prod.fst).Nodup))
    ∧ (∀ m, buildConstructed none true
          [(3, Bucket.mk 2 "str" [(1, "x".toList)]), (7, Bucket.mk 1 "str" [(1, "y".toList)])]
          = .ok m →
        ((Bucket.mk 2 "str" [(1, "x".toList)]).data.length
            < (Bucket.mk 2 "str" [(1, "x".toList)]).batches → dictLookup m 3 = none)
        ∧ ((Bucket.mk 2 "str" [(1, "x".toList)]).data.length
            = (Bucket.mk 2 "str" [(1, "x".toList)]).batches →
            ∃ v, construct (Bucket.mk 2 "str" [(1, "x".toList)]) none = .ok v
              ∧ dictLookup m 3 = some v))
    ∧ (∀ m, buildConstructed none false
          [(3, Bucket.mk 2 "str" [(1, "x".toList)]), (7, Bucket.mk 1 "str" [(1, "y".toList)])]
          = .ok m →
        ∃ v, construct (Bucket.mk 2 "str" [(1, "x".toList)]) none = .ok v
          ∧ dictLookup m 3 = some v) :=
  ⟨⟨by decide, by decide⟩,
    (strict_completeness_amended _ none 3 _ (by decide) (by decide)).1,
    (strict_completeness_amended _ none 3 _ (by decide) (by decide)).2⟩

/-- C5 counterexample: two complete buckets; the one with the maximum
timestamp (7) reconstructs to the string `hi`, yet `fetch(latest=true)`
returns nothing at all: the bucket at timestamp 3 (dtype `dict`,
malformed hex) raises during reconstruction and aborts the fetch. -/
theorem latest_selection_counterexample :
    construct ⟨1, "str", [(1, "hi".toList)]⟩ none = .ok (.str "hi".toList)
    ∧ scan "c"
        [.customJson "c" ⟨some "1.0.0", 3, none, none, "dict", "686".toList⟩,
         .customJson "c" ⟨some "1.0.0", 7, none, none, "str", "hi".toList⟩]
      = [(3, ⟨1, "dict", [(1, "686".toList)]⟩), (7, ⟨1, "str", [(1, "hi".toList)]⟩)]
    ∧ fetchModel "c" none 1000 true true
        [.customJson "c" ⟨some "1.0.0", 3, none, none, "dict", "686".toList⟩,
         .customJson "c" ⟨some "1.0.0", 7, none, none, "str", "hi".toList⟩]
      = .error .hexError := by
  refine ⟨by decide, by decide, by decide⟩

/-- C5 as amended: when every surviving bucket reconstructs
successfully, fetch with latest=true returns exactly the value of the
maximum-timestamp entry of the constructed mapping, the empty-string
sentinel when the mapping is empty, and with latest=false the whole
mapping. -/
theorem latest_selection_amended (versions : List (Nat × Bucket))
    (key : Option Cypher) (strict : Bool) (m : List (Nat × PyValue))
    (hm : buildConstructed key strict versions = .ok m) :
    (∀ ts v, (ts, v) ∈ m → (∀ k ∈ m.map Prod.fst, k ≤ ts) →
        (m.map Prod.fst).Nodup → fetchFinish versions key strict true = .ok (.value v))
    ∧ (m = [] → fetchFinish versions key strict true = .ok (.value (.str [])))
    ∧ fetchFinish versions key strict false = .ok (.table m) := by
  refine ⟨?_, ?_, ?_⟩
  · intro ts v hmem hmax hnd
    have hne : m ≠ [] := by
      intro hc
      rw [hc] at hmem
      simp at hmem
    have hts_le : ts ≤ maxKey m :=
      le_foldl_max _ 0 ts (List.mem_map.mpr ⟨(ts, v), hmem, rfl⟩)
    have hle : maxKey m ≤ ts := foldl_max_le _ 0 ts (Nat.zero_le ts) hmax
    have hmk : maxKey m = ts := le_antisymm hle hts_le
    rw [fetchFinish, hm]
    show (if true = true then _ else _) = _
    rw [if_pos rfl, if_pos hne, hmk, dictLookup_of_mem m ts v hmem hnd]
  · intro hc
    subst hc
    rw [fetchFinish, hm]
    show (if true = true then _ else _) = _
    rw [if_pos rfl, if_neg (by simp)]
  · rw [fetchFinish, hm]
    show (if false = true then _ else _) = _
    rw [if_neg (by simp)]

/-- C5 witness: two complete `str` buckets at timestamps 3 and 7;
latest=true returns the value written at 7, latest=false the full
mapping. -/
theorem latest_selection_amended_witness :
    buildConstructed none true
        [(3, Bucket.mk 1 "str" [(1, "x".toList)]), (7, Bucket.mk 1 "str" [(1, "y".toList)])]
      = .ok [(3, .str "x".toList), (7, .str "y".toList)]
    ∧ fetchFinish
        [(3, Bucket.mk 1 "str" [(1, "x".toList)]), (7, Bucket.mk 1 "str" [(1, "y".toList)])]
        none true true = .ok (.value (.str "y".toList))
    ∧ fetchFinish
        [(3, Bucket.mk 1 "str" [(1, "x".toList)]), (7, Bucket.mk 1 "str" [(1, "y".toList)])]
        none true false
      = .ok (.table [(3, .str "x".toList), (7, .str "y".toList)]) :=
  ⟨by decide,
    (latest_selection_amended
      [(3, Bucket.mk 1 "str" [(1, "x".toList)]), (7, Bucket.mk 1 "str" [(1, "y".toList)])]
      none true [(3, .str "x".toList), (7, .str "y".toList)] (by decide)).1
      7 (.str "y".toList) (by decide) (by decide) (by decide),
    (latest_selection_amended
      [(3, Bucket.mk 1 "str" [(1, "x".toList)]), (7, Bucket.mk 1 "str" [(1, "y".toList)])]
      none true [(3, .str "x".toList), (7, .str "y".toList)] (by decide)).2.2⟩

/-- C7: when a cypher is supplied and decryption of the joined chunk
text fails, `_construct` returns the raw undecrypted text as a string
instead of raising, and the surrounding fetch walk carries on, recording
that fallback value and processing the remaining buckets unchanged. -/
theorem decrypt_fallback (b : Bucket) (cy : Cypher) (hne : b.data ≠ [])
    (hdec : cy.decrypt (joinChunks b.data) = none) :
    construct b (some cy) = .ok (.str (joinChunks b.data))
    ∧ (∀ (ts : Nat) (rest : List (Nat × Bucket)) (strict : Bool)
         (m : List (Nat × PyValue)),
        buildConstructed (some cy) strict rest = .ok m →
        b.batches = b.data.length →
        buildConstructed (some cy) strict ((ts, b) :: rest)
          = .ok ((ts, .str (joinChunks b.data)) :: m)) := by
  have h1 : construct b (some cy) = .ok (.str (joinChunks b.data)) := by
    rw [construct, if_neg hne]
    show (match cy.decrypt (joinChunks b.data) with
          | some d => decodeData b.dtype d
          | none => Except.ok (PyValue.str (joinChunks b.data)))
        = Except.ok (PyValue.str (joinChunks b.data))
    rw [hdec]
  refine ⟨h1, ?_⟩
  intro ts rest strict m hrest heq
  rw [buildConstructed, if_neg (fun hc => hc.2 heq), h1, hrest]

/-- C7 witness: a one-chunk bucket with a cypher whose decrypt always
fails falls back to the raw text, and the fetch walk records it. -/
theorem decrypt_fallback_witness :
    construct (Bucket.mk 1 "str" [(1, "x".toList)])
        (some (Cypher.mk (fun s => s) (fun _ => none)))
      = .ok (.str (joinChunks [(1, "x".toList)]))
    ∧ buildConstructed (some (Cypher.mk (fun s => s) (fun _ => none))) true
        [(5, Bucket.mk 1 "str" [(1, "x".toList)])]
      = .ok [(5, .str (joinChunks [(1, "x".toList)]))] := by
  have h := decrypt_fallback (Bucket.mk 1 "str" [(1, "x".toList)])
    (Cypher.mk (fun s => s) (fun _ => none)) (by decide) rfl
  exact ⟨h.1, h.2 5 [] true [] rfl (by decide)⟩

/-- C8 counterexample: an object value (one exposing `__bytes__`) does
not survive the codec round trip: decoding the `object` dtype returns
the text of the byte representation, a string value, not the original
object. -/
theorem codec_roundtrip_counterexample :
    decodeData (getDtype (.obj "hi".toList)) (encodeData (.obj "hi".toList))
      = .ok (.str "hi".toList)
    ∧ (PyValue.str "hi".toList) ≠ (PyValue.obj "hi".toList) := by
  refine ⟨by decide, by decide⟩

/-- C8 as amended: the codec round trip `decode(dtype(v), encode(v)) = v`
holds for the Text, Integer, Float and Structured categories (for
Structured, over byte payloads and a type-name tag outside the reserved
set); an Object value instead decodes to the text of its byte
representation. -/
theorem codec_roundtrip_amended (v : PyValue)
    (hv : match v with
          | .structured tn r =>
              tn ∉ (["str", "int", "float", "object"] : List String)
              ∧ ∀ c ∈ r, c.toNat < 256
          | .obj b => ∀ c ∈ b, c.toNat < 256
          | _ => True) :
    decodeData (getDtype v) (encodeData v)
      = .ok (match v with | .obj b => PyValue.str b | w => w) := by
  cases v with
  | str s =>
    show decodeData "str" s = .ok (.str s)
    rw [decodeData]
    rw [if_neg (fun hc => hc.1 rfl)]
    show (if ("str" ≠ "str" ∧ "str" ≠ "object") then _ else _) = _
    rw [if_neg (fun hc => hc.1 rfl)]
  | int n =>
    show decodeData "int" (intRepr n) = .ok (.int n)
    rw [decodeData]
    rw [if_neg (fun hc => hc.2.1 rfl)]
    show (if ("int" ≠ "str" ∧ "int" ≠ "object") then _ else _) = _
    rw [if_pos ⟨by decide, by decide⟩, if_pos rfl, parseInt_intRepr]
  | float r =>
    show decodeData "float" r = .ok (.float r)
    rw [decodeData]
    rw [if_neg (fun hc => hc.2.2 rfl)]
    show (if ("float" ≠ "str" ∧ "float" ≠ "object") then _ else _) = _
    rw [if_pos ⟨by decide, by decide⟩, if_neg (by decide), if_pos rfl]
  | structured tn r =>
    obtain ⟨hnotin, hbytes⟩ := hv
    simp only [List.mem_cons, List.not_mem_nil, or_false] at hnotin
    push_neg at hnotin
    obtain ⟨h1, h2, h3, h4⟩ := hnotin
    show decodeData tn (hexlify r) = .ok (.structured tn r)
    rw [decodeData]
    rw [if_pos ⟨h1, h2, h3⟩, unhexlify_hexlify r hbytes]
    show (if (tn ≠ "str" ∧ tn ≠ "object") then _ else _) = _
    rw [if_pos ⟨h1, h4⟩, if_neg h2, if_neg h3]
  | obj b =>
    show decodeData "object" (hexlify b) = .ok (.str b)
    rw [decodeData]
    rw [if_pos ⟨by decide, by decide, by decide⟩, unhexlify_hexlify b hv]
    show (if ("object" ≠ "str" ∧ "object" ≠ "object") then _ else _) = _
    rw [if_neg (fun hc => hc.2 rfl)]

/-- C8 witness: a structured value (a `dict` rendering) passes the
amended round trip; its payload characters are bytes and its type name
is outside the reserved set. -/
theorem codec_roundtrip_amended_witness :
    (match PyValue.structured "dict" "[1, 2]".toList with
     | .structured tn r =>
         tn ∉ (["str", "int", "float", "object"] : List String)
         ∧ ∀ c ∈ r, c.toNat < 256
     | .obj b => ∀ c ∈ b, c.toNat < 256
     | _ => True)
    ∧ decodeData (getDtype (.structured "dict" "[1, 2]".toList))
        (encodeData (.structured "dict" "[1, 2]".toList))
      = .ok (match PyValue.structured "dict" "[1, 2]".toList with
             | .obj b => PyValue.str b
             | w => w) :=
  ⟨by decide, codec_roundtrip_amended (.structured "dict" "[1, 2]".toList) (by decide)⟩

end HaaDB
